import Mathlib

/-
  Verification of the Prepro-F25 preprocessing pipeline.

  The development embeds the adaptive median filter of AMF.py and the
  SNR computation of compute_snr.py as Lean functions over grids of real
  numbers (floating point values are idealised as reals; the float32 cast
  at the top of AMF is modelled as the identity on reals).

  A grid is a list of rows, each row a list of reals, mirroring the
  (frequency x time) numpy arrays of the source.
-/

set_option maxHeartbeats 1600000

noncomputable section

/-- 2D array of real intensities (rows = frequency bins, columns = time). -/
abbrev Grid := List (List ℝ)

/-- Number of rows, spec.shape[0]. -/
def nrows (g : Grid) : ℕ := g.length

/-- Number of columns, spec.shape[1] (length of the first row). -/
def ncols (g : Grid) : ℕ := (g.headD []).length

/-- Well-formed rectangular grid: every row has the common length. -/
def WF (g : Grid) : Prop := ∀ row ∈ g, row.length = ncols g

/-- Entry at integer indices, spec[i][j]. -/
def atIdx (g : Grid) (i j : ℕ) : ℝ := (g.getD i []).getD j 0

/-- Build an F x T grid from an entrywise formula. -/
def mkGrid (F T : ℕ) (f : ℕ → ℕ → ℝ) : Grid :=
  (List.range F).map (fun i => (List.range T).map (fun j => f i j))

/-- scipy boundary mode "reflect" ((d c b a | a b c d | d c b a)):
fold an arbitrary integer index into the valid range [0, N). -/
def reflectIdx (N : ℕ) (i : ℤ) : ℤ :=
  if i % (2 * (N : ℤ)) < N then i % (2 * (N : ℤ)) else 2 * N - 1 - i % (2 * (N : ℤ))

/-- Grid entry at arbitrary integer coordinates, read through the
reflected extension of the grid (scipy mode="reflect"). -/
def atRefl (g : Grid) (i j : ℤ) : ℝ :=
  atIdx g (reflectIdx (nrows g) i).toNat (reflectIdx (ncols g) j).toNat

/-- map_coordinates(spec, [x, y], order=1, mode="reflect"): bilinear
interpolation at real coordinates, neighbours read through the reflected
extension. x is the row coordinate, y the column coordinate. -/
def interp2 (g : Grid) (x y : ℝ) : ℝ :=
  (1 - (x - ⌊x⌋)) * (1 - (y - ⌊y⌋)) * atRefl g ⌊x⌋ ⌊y⌋
  + (1 - (x - ⌊x⌋)) * (y - ⌊y⌋) * atRefl g ⌊x⌋ (⌊y⌋ + 1)
  + (x - ⌊x⌋) * (1 - (y - ⌊y⌋)) * atRefl g (⌊x⌋ + 1) ⌊y⌋
  + (x - ⌊x⌋) * (y - ⌊y⌋) * atRefl g (⌊x⌋ + 1) (⌊y⌋ + 1)

/-- sobel(spec, axis=1, mode="reflect"): derivative [-1,0,1] along the
column (time) axis, smoothing [1,2,1] along the row axis. -/
def sobelX (g : Grid) : Grid :=
  mkGrid (nrows g) (ncols g) (fun i j =>
    (atRefl g ((i : ℤ) - 1) ((j : ℤ) + 1) - atRefl g ((i : ℤ) - 1) ((j : ℤ) - 1))
    + 2 * (atRefl g (i : ℤ) ((j : ℤ) + 1) - atRefl g (i : ℤ) ((j : ℤ) - 1))
    + (atRefl g ((i : ℤ) + 1) ((j : ℤ) + 1) - atRefl g ((i : ℤ) + 1) ((j : ℤ) - 1)))

/-- sobel(spec, axis=0, mode="reflect"): derivative [-1,0,1] along the
row (frequency) axis, smoothing [1,2,1] along the column axis. -/
def sobelY (g : Grid) : Grid :=
  mkGrid (nrows g) (ncols g) (fun i j =>
    (atRefl g ((i : ℤ) + 1) ((j : ℤ) - 1) - atRefl g ((i : ℤ) - 1) ((j : ℤ) - 1))
    + 2 * (atRefl g ((i : ℤ) + 1) (j : ℤ) - atRefl g ((i : ℤ) - 1) (j : ℤ))
    + (atRefl g ((i : ℤ) + 1) ((j : ℤ) + 1) - atRefl g ((i : ℤ) - 1) ((j : ℤ) + 1)))

/-- np.arctan2(y, x), written with the standard quadrant cases over
Real.arctan; arctan2 0 0 = 0 as in numpy. -/
def arctan2 (y x : ℝ) : ℝ :=
  if 0 < x then Real.arctan (y / x)
  else if x < 0 then
    (if 0 ≤ y then Real.arctan (y / x) + Real.pi else Real.arctan (y / x) - Real.pi)
  else if 0 < y then Real.pi / 2
  else if y < 0 then -(Real.pi / 2)
  else 0

/-- theta = np.arctan2(Gy, Gx) + np.pi / 2, the normal direction field. -/
def thetaGrid (g : Grid) : Grid :=
  mkGrid (nrows g) (ncols g) (fun i j =>
    arctan2 (atIdx (sobelY g) i j) (atIdx (sobelX g) i j) + Real.pi / 2)

/-- dx = np.cos(theta). -/
def dxGrid (g : Grid) : Grid :=
  mkGrid (nrows g) (ncols g) (fun i j => Real.cos (atIdx (thetaGrid g) i j))

/-- dy = np.sin(theta). -/
def dyGrid (g : Grid) : Grid :=
  mkGrid (nrows g) (ncols g) (fun i j => Real.sin (atIdx (thetaGrid g) i j))

/-- offsets = np.arange(-radius, radius + 1): the integer displacements
along the normal direction; empty when radius is negative. -/
def offsets (radius : ℤ) : List ℤ :=
  (List.range (2 * radius + 1).toNat).map (fun t : ℕ => -radius + (t : ℤ))

/-- np.median of a list of reals: sort ascending and take the middle
element, averaging the two middle elements for an even count. -/
def npMedian (l : List ℝ) : ℝ :=
  if l.length % 2 = 1 then (l.insertionSort (fun a b => a ≤ b)).getD (l.length / 2) 0
  else ((l.insertionSort (fun a b => a ≤ b)).getD (l.length / 2 - 1) 0
    + (l.insertionSort (fun a b => a ≤ b)).getD (l.length / 2) 0) / 2

/-- dy[start:end] (and likewise dx[start:end], filtered chunk rows):
the rows of a grid with indices in [start, stop). -/
def sliceRows (g : Grid) (start stop : ℕ) : Grid := (g.drop start).take (stop - start)

/-- One directional sample plane for a chunk and one offset k:
vals = map_coordinates(spec, [rows + k * dy[start:end], cols + k * dx[start:end]]).
Row li of the result is global row start + li; samples are read from the
full, unchunked spectrogram. -/
def chunkSample (spec dySl dxSl : Grid) (start : ℕ) (k : ℤ) : Grid :=
  mkGrid dySl.length (ncols spec) (fun li j =>
    interp2 spec (((start + li : ℕ) : ℝ) + (k : ℝ) * atIdx dySl li j)
      ((j : ℝ) + (k : ℝ) * atIdx dxSl li j))

/-- The mutable state of the filter: the input spectrogram and the
progressively filled output array. -/
structure AMFState where
  spec : Grid
  filtered : Grid

/-- filtered[start:start+rows,:] = rowsNew : overwrite a block of rows. -/
def writeRows (g : Grid) (start : ℕ) (rowsNew : Grid) : Grid :=
  g.take start ++ rowsNew ++ g.drop (start + rowsNew.length)

/-- One iteration of the chunk loop: build the per-offset sample planes
for rows [start, min(start+chunkSize, nrows)), stack them and write the
per-pixel medians into the output block. np.stack of an empty list (the
radius < 0 case) raises, modelled as none. -/
def chunkStep (dy dx : Grid) (radius : ℤ) (chunkSize : ℕ) (st : AMFState) (start : ℕ) :
    Option AMFState :=
  let stop := min (start + chunkSize) (nrows st.spec)
  let localVals := (offsets radius).map
    (fun k : ℤ => chunkSample st.spec (sliceRows dy start stop) (sliceRows dx start stop) start k)
  if localVals.isEmpty then none
  else some { st with
    filtered := writeRows st.filtered start
      (mkGrid (stop - start) (ncols st.spec)
        (fun li j => npMedian (localVals.map (fun v => atIdx v li j)))) }

/-- range(0, n, c): the starting rows of the chunks. -/
def chunkStarts (n c : ℕ) : List ℕ :=
  (List.range ((n + c - 1) / c)).map (fun t => t * c)

/-- The chunk loop: fold chunkStep over all chunk starts, beginning from
the zero-initialised output array. -/
def runChunks (spec dy dx : Grid) (radius : ℤ) (chunkSize : ℕ) : Option AMFState :=
  (chunkStarts (nrows spec) chunkSize).foldlM (chunkStep dy dx radius chunkSize)
    ⟨spec, mkGrid (nrows spec) (ncols spec) (fun _ _ => 0)⟩

/-- The adaptive median filter with the chunk size made explicit
(the source hard-codes chunk_size = 2000 as a local constant). -/
def AMFwith (spec : Grid) (radius : ℤ) (chunkSize : ℕ) : Option Grid :=
  (runChunks spec (dyGrid spec) (dxGrid spec) radius chunkSize).map (fun st => st.filtered)

/-- AMF(spec, radius=15): the filter as exposed by the source. -/
def AMF (spec : Grid) (radius : ℤ := 15) : Option Grid := AMFwith spec radius 2000

/-- The list of directional samples collected for one pixel: for each
offset k, the bilinear sample of the full spectrogram at the coordinate
displaced along the normal direction. -/
def sampleList (spec : Grid) (radius : ℤ) (i j : ℕ) : List ℝ :=
  (offsets radius).map (fun k : ℤ =>
    interp2 spec ((i : ℝ) + (k : ℝ) * atIdx (dyGrid spec) i j)
      ((j : ℝ) + (k : ℝ) * atIdx (dxGrid spec) i j))

/-- The unchunked reference filter: every pixel is the median of its
directional samples. -/
def AMFpointwise (spec : Grid) (radius : ℤ) : Grid :=
  mkGrid (nrows spec) (ncols spec) (fun i j => npMedian (sampleList spec radius i j))

theorem length_mkGrid (F T : ℕ) (f : ℕ → ℕ → ℝ) : (mkGrid F T f).length = F := by
  simp [mkGrid]

theorem nrows_mkGrid (F T : ℕ) (f : ℕ → ℕ → ℝ) : nrows (mkGrid F T f) = F := by
  simp [nrows, mkGrid]

theorem ncols_mkGrid (F T : ℕ) (f : ℕ → ℕ → ℝ) (h : 0 < F) : ncols (mkGrid F T f) = T := by
  obtain ⟨F', rfl⟩ : ∃ F', F = F' + 1 := ⟨F - 1, by omega⟩
  simp [ncols, mkGrid, List.range_succ_eq_map]

theorem row_mkGrid (F T : ℕ) (f : ℕ → ℕ → ℝ) (i : ℕ) (h : i < F) :
    (mkGrid F T f).getD i [] = (List.range T).map (f i) := by
  simp [mkGrid, List.getD, h]

theorem row_mkGrid_ge (F T : ℕ) (f : ℕ → ℕ → ℝ) (i : ℕ) (h : F ≤ i) :
    (mkGrid F T f).getD i [] = [] := by
  simp [mkGrid, List.getD, List.getElem?_eq_none, Nat.not_lt.mpr h, h]

theorem atIdx_mkGrid (F T : ℕ) (f : ℕ → ℕ → ℝ) (i j : ℕ) (hi : i < F) (hj : j < T) :
    atIdx (mkGrid F T f) i j = f i j := by
  unfold atIdx
  rw [row_mkGrid F T f i hi]
  simp [List.getD, hj]

theorem WF_mkGrid (F T : ℕ) (f : ℕ → ℕ → ℝ) : WF (mkGrid F T f) := by
  intro row hrow
  simp only [mkGrid, List.mem_map, List.mem_range] at hrow
  obtain ⟨i, hi, rfl⟩ := hrow
  rcases Nat.eq_zero_or_pos F with h | h
  · omega
  · simp [ncols_mkGrid F T f h]

theorem reflectIdx_bounds (N : ℕ) (i : ℤ) (h : 0 < N) :
    0 ≤ reflectIdx N i ∧ reflectIdx N i < N := by
  have h2 : (0:ℤ) < 2 * N := by positivity
  have hlo : 0 ≤ i % (2 * (N:ℤ)) := Int.emod_nonneg i (by positivity)
  have hhi : i % (2 * (N:ℤ)) < 2 * N := Int.emod_lt_of_pos i h2
  unfold reflectIdx
  split <;> omega

theorem reflectIdx_of_lt (N : ℕ) (i : ℤ) (h1 : 0 ≤ i) (h2 : i < N) : reflectIdx N i = i := by
  have : i % (2 * (N:ℤ)) = i := Int.emod_eq_of_lt h1 (by omega)
  unfold reflectIdx
  simp only [this]
  split <;> omega

theorem atRefl_natCast (g : Grid) (i j : ℕ) (hi : i < nrows g) (hj : j < ncols g) :
    atRefl g (i : ℤ) (j : ℤ) = atIdx g i j := by
  unfold atRefl
  rw [reflectIdx_of_lt _ _ (by omega) (by exact_mod_cast hi),
    reflectIdx_of_lt _ _ (by omega) (by exact_mod_cast hj)]
  simp

theorem interp2_intCast (g : Grid) (i j : ℤ) :
    interp2 g ((i : ℤ) : ℝ) ((j : ℤ) : ℝ) = atRefl g i j := by
  unfold interp2
  rw [Int.floor_intCast, Int.floor_intCast]
  ring

theorem interp2_natCast (g : Grid) (i j : ℕ) (hi : i < nrows g) (hj : j < ncols g) :
    interp2 g (i : ℝ) (j : ℝ) = atIdx g i j := by
  have h1 : ((i:ℕ) : ℝ) = ((i : ℤ) : ℝ) := by push_cast; ring
  have h2 : ((j:ℕ) : ℝ) = ((j : ℤ) : ℝ) := by push_cast; ring
  rw [h1, h2, interp2_intCast, atRefl_natCast g i j hi hj]

theorem npMedian_odd (l : List ℝ) (n : ℕ) (h : l.length = 2 * n + 1) :
    npMedian l = (l.insertionSort (fun a b => a ≤ b)).getD n 0 := by
  have h1 : l.length % 2 = 1 := by omega
  have h2 : l.length / 2 = n := by omega
  simp [npMedian, h1, h2]

theorem npMedian_const (l : List ℝ) (c : ℝ) (h0 : l ≠ []) (hc : ∀ x ∈ l, x = c) :
    npMedian l = c := by
  have hperm := List.perm_insertionSort (fun a b => a ≤ b) l
  have hlen : (l.insertionSort (fun a b => a ≤ b)).length = l.length := hperm.length_eq
  have hmem : ∀ i : ℕ, i < l.length → (l.insertionSort (fun a b => a ≤ b)).getD i 0 = c := by
    intro i hi
    have hi' : i < (l.insertionSort (fun a b => a ≤ b)).length := by omega
    rw [List.getD_eq_getElem _ _ hi']
    exact hc _ (hperm.mem_iff.mp (List.getElem_mem hi'))
  have hpos : 0 < l.length := List.length_pos.mpr h0
  unfold npMedian
  split
  · exact hmem _ (by omega)
  · rw [hmem _ (by omega), hmem _ (by omega)]
    ring

theorem offsets_length (radius : ℤ) : (offsets radius).length = (2 * radius + 1).toNat := by
  simp [offsets]

theorem offsets_ne_nil (radius : ℤ) (h : 0 ≤ radius) : offsets radius ≠ [] := by
  have hlen : (offsets radius).length = (2 * radius + 1).toNat := offsets_length radius
  intro hnil
  rw [hnil, List.length_nil] at hlen
  omega

theorem offsets_nil (radius : ℤ) (h : radius < 0) : offsets radius = [] := by
  have h1 : (2 * radius + 1).toNat = 0 := by omega
  simp [offsets, h1]

theorem mem_offsets (radius : ℤ) (h : 0 ≤ radius) (k : ℤ) :
    k ∈ offsets radius ↔ -radius ≤ k ∧ k ≤ radius := by
  simp only [offsets, List.mem_map, List.mem_range]
  constructor
  · rintro ⟨t, ht, rfl⟩
    constructor
    · omega
    · omega
  · rintro ⟨h1, h2⟩
    refine ⟨(k + radius).toNat, ?_, ?_⟩
    · omega
    · omega

theorem getElem?_sliceRows (g : Grid) (s e li : ℕ) (h : li < e - s) :
    (sliceRows g s e)[li]? = g[s + li]? := by
  simp [sliceRows, List.getElem?_take, h, List.getElem?_drop]

theorem length_sliceRows (g : Grid) (s e : ℕ) (h : e ≤ g.length) :
    (sliceRows g s e).length = e - s := by
  simp only [sliceRows, List.length_take, List.length_drop]
  omega

theorem atIdx_sliceRows (g : Grid) (s e li j : ℕ) (h : li < e - s) :
    atIdx (sliceRows g s e) li j = atIdx g (s + li) j := by
  simp only [atIdx, List.getD, List.get?_eq_getElem?]
  rw [getElem?_sliceRows g s e li h]

theorem atIdx_chunkSample (spec dySl dxSl : Grid) (start : ℕ) (k : ℤ) (li j : ℕ)
    (hli : li < dySl.length) (hj : j < ncols spec) :
    atIdx (chunkSample spec dySl dxSl start k) li j
      = interp2 spec (((start + li : ℕ) : ℝ) + (k : ℝ) * atIdx dySl li j)
          ((j : ℝ) + (k : ℝ) * atIdx dxSl li j) := by
  unfold chunkSample
  exact atIdx_mkGrid _ _ _ li j hli hj

theorem nrows_dyGrid (spec : Grid) : (dyGrid spec).length = nrows spec := by
  simp [dyGrid, mkGrid]

theorem nrows_dxGrid (spec : Grid) : (dxGrid spec).length = nrows spec := by
  simp [dxGrid, mkGrid]

theorem length_AMFpointwise (spec : Grid) (radius : ℤ) :
    (AMFpointwise spec radius).length = nrows spec := by
  simp [AMFpointwise, mkGrid]

theorem chunk_block_eq (spec : Grid) (radius : ℤ) (start stop : ℕ)
    (hstop : stop ≤ nrows spec) :
    mkGrid (stop - start) (ncols spec)
      (fun li j => npMedian (((offsets radius).map
        (fun k => chunkSample spec (sliceRows (dyGrid spec) start stop)
          (sliceRows (dxGrid spec) start stop) start k)).map
            (fun v => atIdx v li j)))
      = sliceRows (AMFpointwise spec radius) start stop := by
  have hdy : (sliceRows (dyGrid spec) start stop).length = stop - start := by
    rw [length_sliceRows _ _ _ (by rw [nrows_dyGrid]; exact hstop)]
  have htgt : (AMFpointwise spec radius).length = nrows spec := length_AMFpointwise spec radius
  apply List.ext_getElem?
  intro li
  rcases Nat.lt_or_ge li (stop - start) with hli | hli
  · rw [getElem?_sliceRows _ _ _ _ hli]
    have hsl : start + li < nrows spec := by omega
    have hrow : (AMFpointwise spec radius)[start + li]?
        = some ((List.range (ncols spec)).map
            (fun j => npMedian (sampleList spec radius (start + li) j))) := by
      simp [AMFpointwise, mkGrid, List.getElem?_map, List.getElem?_range, hsl]
    rw [hrow]
    have hmk : (mkGrid (stop - start) (ncols spec)
        (fun li j => npMedian (((offsets radius).map
          (fun k => chunkSample spec (sliceRows (dyGrid spec) start stop)
            (sliceRows (dxGrid spec) start stop) start k)).map
              (fun v => atIdx v li j))))[li]?
        = some ((List.range (ncols spec)).map
            (fun j => npMedian (((offsets radius).map
              (fun k => chunkSample spec (sliceRows (dyGrid spec) start stop)
                (sliceRows (dxGrid spec) start stop) start k)).map
                  (fun v => atIdx v li j)))) := by
      simp [mkGrid, List.getElem?_map, List.getElem?_range, hli]
    rw [hmk]
    congr 1
    apply List.map_congr_left
    intro j hj
    rw [List.mem_range] at hj
    congr 1
    rw [List.map_map, sampleList]
    apply List.map_congr_left
    intro k _
    have h1 : atIdx (chunkSample spec (sliceRows (dyGrid spec) start stop)
        (sliceRows (dxGrid spec) start stop) start k) li j
        = interp2 spec (((start + li : ℕ) : ℝ)
            + (k : ℝ) * atIdx (sliceRows (dyGrid spec) start stop) li j)
          ((j : ℝ) + (k : ℝ) * atIdx (sliceRows (dxGrid spec) start stop) li j) :=
      atIdx_chunkSample _ _ _ _ _ _ _ (by omega) hj
    simp only [Function.comp_apply]
    rw [h1, atIdx_sliceRows _ _ _ _ _ hli, atIdx_sliceRows _ _ _ _ _ hli]
  · rw [List.getElem?_eq_none (by rw [length_mkGrid]; exact hli),
      List.getElem?_eq_none (by rw [length_sliceRows _ _ _ (by rw [htgt]; exact hstop)]; exact hli)]

theorem length_writeRows (g : Grid) (s : ℕ) (rows : Grid) (h : s + rows.length ≤ g.length) :
    (writeRows g s rows).length = g.length := by
  simp only [writeRows, List.length_append, List.length_take, List.length_drop]
  omega

theorem getElem?_writeRows (g : Grid) (s : ℕ) (rows : Grid) (h : s + rows.length ≤ g.length)
    (i : ℕ) :
    (writeRows g s rows)[i]? = if s ≤ i ∧ i < s + rows.length then rows[i - s]? else g[i]? := by
  have hs : (g.take s).length = s := by rw [List.length_take]; omega
  have hts : (g.take s ++ rows).length = s + rows.length := by
    rw [List.length_append, hs]
  unfold writeRows
  rw [List.getElem?_append, hts]
  rcases Nat.lt_or_ge i (s + rows.length) with h1 | h1
  · rw [if_pos h1, List.getElem?_append, hs]
    rcases Nat.lt_or_ge i s with h2 | h2
    · rw [if_pos h2, List.getElem?_take, if_pos h2, if_neg (by omega)]
    · rw [if_neg (by omega), if_pos (by omega)]
  · rw [if_neg (by omega), List.getElem?_drop, if_neg (by omega)]
    congr 1
    omega

theorem getD_writeRows (g : Grid) (s : ℕ) (rows : Grid) (h : s + rows.length ≤ g.length)
    (i : ℕ) :
    (writeRows g s rows).getD i []
      = if s ≤ i ∧ i < s + rows.length then rows.getD (i - s) [] else g.getD i [] := by
  simp only [List.getD, List.get?_eq_getElem?, getElem?_writeRows g s rows h i]
  split <;> rfl

theorem mem_chunkStarts (n c s : ℕ) :
    s ∈ chunkStarts n c ↔ ∃ t, t < (n + c - 1) / c ∧ s = t * c := by
  simp [chunkStarts, eq_comm]

theorem chunkStarts_lt (n c : ℕ) (hc : 0 < c) (s : ℕ) (hs : s ∈ chunkStarts n c) : s < n := by
  rw [mem_chunkStarts] at hs
  obtain ⟨t, ht, rfl⟩ := hs
  have h2 : (t + 1) * c ≤ n + c - 1 := (Nat.le_div_iff_mul_le hc).mp ht
  have h3 : (t + 1) * c = t * c + c := by ring
  omega

theorem chunkStarts_cover (n c : ℕ) (hc : 0 < c) (i : ℕ) (hi : i < n) :
    ∃ s ∈ chunkStarts n c, s ≤ i ∧ i < s + c := by
  refine ⟨i / c * c, ?_, Nat.div_mul_le_self i c, ?_⟩
  · rw [mem_chunkStarts]
    refine ⟨i / c, ?_, rfl⟩
    have h2 : (i / c + 1) * c ≤ n + c - 1 := by
      have h3 : i / c * c ≤ i := Nat.div_mul_le_self i c
      have h4 : (i / c + 1) * c = i / c * c + c := by ring
      omega
    exact Nat.lt_of_succ_le ((Nat.le_div_iff_mul_le hc).mpr h2)
  · have h5 := Nat.div_add_mod i c
    have h6 : i % c < c := Nat.mod_lt i hc
    have h7 : c * (i / c) = i / c * c := Nat.mul_comm c (i / c)
    omega

theorem chunkStarts_ne_nil (n c : ℕ) (hc : 0 < c) (hn : 0 < n) : chunkStarts n c ≠ [] := by
  intro hnil
  have h1 : (chunkStarts n c).length = (n + c - 1) / c := by simp [chunkStarts]
  have h2 : 1 ≤ (n + c - 1) / c := (Nat.le_div_iff_mul_le hc).mpr (by omega)
  rw [hnil, List.length_nil] at h1
  omega

theorem chunkStep_success (spec : Grid) (radius : ℤ) (c : ℕ) (hr : 0 ≤ radius)
    (fl : Grid) (s : ℕ) :
    chunkStep (dyGrid spec) (dxGrid spec) radius c ⟨spec, fl⟩ s
      = some ⟨spec, writeRows fl s
          (sliceRows (AMFpointwise spec radius) s (min (s + c) (nrows spec)))⟩ := by
  have hne : ((offsets radius).map (fun k : ℤ => chunkSample spec
      (sliceRows (dyGrid spec) s (min (s + c) (nrows spec)))
      (sliceRows (dxGrid spec) s (min (s + c) (nrows spec))) s k)) ≠ [] := by
    intro hnil
    exact offsets_ne_nil radius hr (List.map_eq_nil_iff.mp hnil)
  simp only [chunkStep, List.isEmpty_iff, hne]
  rw [if_neg not_false]
  congr 2
  rw [chunk_block_eq spec radius s (min (s + c) (nrows spec)) (Nat.min_le_right _ _)]

theorem foldlM_chunkStep_eq (spec : Grid) (radius : ℤ) (c : ℕ) (hr : 0 ≤ radius)
    (l : List ℕ) :
    ∀ fl : Grid,
      List.foldlM (chunkStep (dyGrid spec) (dxGrid spec) radius c) (⟨spec, fl⟩ : AMFState) l
        = some ⟨spec, l.foldl (fun acc s => writeRows acc s
            (sliceRows (AMFpointwise spec radius) s (min (s + c) (nrows spec)))) fl⟩ := by
  induction l with
  | nil => intro fl; rfl
  | cons s rest ih =>
    intro fl
    rw [List.foldlM_cons, chunkStep_success spec radius c hr fl s]
    simp only [Option.bind_eq_bind, Option.some_bind]
    rw [ih]
    rfl

theorem foldl_write_spec (target : Grid) (c F : ℕ) (hF : target.length = F) (hc : 0 < c)
    (l : List ℕ) :
    ∀ fl : Grid, fl.length = F → (∀ s ∈ l, s < F) →
      (l.foldl (fun acc s => writeRows acc s (sliceRows target s (min (s + c) F))) fl).length = F
      ∧ ∀ i : ℕ,
        (l.foldl (fun acc s => writeRows acc s (sliceRows target s (min (s + c) F))) fl).getD i []
          = if ∃ s ∈ l, s ≤ i ∧ i < min (s + c) F then target.getD i [] else fl.getD i [] := by
  induction l with
  | nil =>
    intro fl hfl _
    refine ⟨hfl, fun i => ?_⟩
    rw [if_neg (by simp)]
    rfl
  | cons s rest ih =>
    intro fl hfl hl
    have hs : s < F := hl s (List.mem_cons_self s rest)
    have hblock : (sliceRows target s (min (s + c) F)).length = min (s + c) F - s :=
      length_sliceRows _ _ _ (by omega)
    have hwb : s + (sliceRows target s (min (s + c) F)).length ≤ fl.length := by
      rw [hblock, hfl]; omega
    have hfl' : (writeRows fl s (sliceRows target s (min (s + c) F))).length = F := by
      rw [length_writeRows _ _ _ hwb, hfl]
    obtain ⟨ihlen, ihget⟩ := ih (writeRows fl s (sliceRows target s (min (s + c) F))) hfl'
      (fun s' hs' => hl s' (List.mem_cons_of_mem s hs'))
    rw [List.foldl_cons]
    refine ⟨ihlen, fun i => ?_⟩
    rw [ihget i, getD_writeRows fl s _ hwb i, hblock]
    by_cases hrest : ∃ s' ∈ rest, s' ≤ i ∧ i < min (s' + c) F
    · rw [if_pos hrest, if_pos (by obtain ⟨s', h1, h2, h3⟩ := hrest; exact ⟨s', List.mem_cons_of_mem s h1, h2, h3⟩)]
    · rw [if_neg hrest]
      by_cases hcur : s ≤ i ∧ i < s + (min (s + c) F - s)
      · rw [if_pos hcur]
        have hi1 : i - s < min (s + c) F - s := by omega
        have hsl : (sliceRows target s (min (s + c) F)).getD (i - s) [] = target.getD i [] := by
          simp only [List.getD, List.get?_eq_getElem?]
          rw [getElem?_sliceRows _ _ _ _ hi1]
          congr 2
          omega
        rw [hsl, if_pos ⟨s, List.mem_cons_self s rest, by omega, by omega⟩]
      · rw [if_neg hcur, if_neg ?_]
        rintro ⟨s', hmem, h1, h2⟩
        rcases List.mem_cons.mp hmem with rfl | hmem'
        · exact hcur ⟨h1, by omega⟩
        · exact hrest ⟨s', hmem', h1, h2⟩

theorem getElem?_eq_getD (l : Grid) (i : ℕ) (h : i < l.length) : l[i]? = some (l.getD i []) := by
  rw [List.getElem?_eq_getElem h, List.getD_eq_getElem l [] h]

theorem AMFwith_eq_pointwise (spec : Grid) (radius : ℤ) (c : ℕ) (hr : 0 ≤ radius) (hc : 0 < c) :
    AMFwith spec radius c = some (AMFpointwise spec radius) := by
  unfold AMFwith runChunks
  rw [foldlM_chunkStep_eq spec radius c hr]
  simp only [Option.map_some']
  congr 1
  have hinit : (mkGrid (nrows spec) (ncols spec) (fun _ _ => 0)).length = nrows spec :=
    length_mkGrid _ _ _
  obtain ⟨hlen, hget⟩ := foldl_write_spec (AMFpointwise spec radius) c (nrows spec)
    (length_AMFpointwise spec radius) hc (chunkStarts (nrows spec) c)
    (mkGrid (nrows spec) (ncols spec) (fun _ _ => 0)) hinit
    (fun s hs => chunkStarts_lt (nrows spec) c hc s hs)
  apply List.ext_getElem?
  intro i
  rcases Nat.lt_or_ge i (nrows spec) with hi | hi
  · rw [getElem?_eq_getD _ i (by omega), getElem?_eq_getD (AMFpointwise spec radius) i
      (by rw [length_AMFpointwise]; omega)]
    congr 1
    rw [hget i]
    obtain ⟨s, hsmem, hs1, hs2⟩ := chunkStarts_cover (nrows spec) c hc i hi
    rw [if_pos ⟨s, hsmem, hs1, by omega⟩]
  · rw [List.getElem?_eq_none (by omega), List.getElem?_eq_none
      (by rw [length_AMFpointwise]; omega)]

theorem AMFwith_neg (spec : Grid) (radius : ℤ) (c : ℕ) (hr : radius < 0) (hc : 0 < c)
    (hn : 0 < nrows spec) : AMFwith spec radius c = none := by
  unfold AMFwith runChunks
  obtain ⟨s, rest, hcons⟩ : ∃ s rest, chunkStarts (nrows spec) c = s :: rest := by
    cases h : chunkStarts (nrows spec) c with
    | nil => exact absurd h (chunkStarts_ne_nil _ _ hc hn)
    | cons a l => exact ⟨a, l, rfl⟩
  rw [hcons, List.foldlM_cons]
  have hstep : chunkStep (dyGrid spec) (dxGrid spec) radius c
      ⟨spec, mkGrid (nrows spec) (ncols spec) (fun _ _ => 0)⟩ s = none := by
    simp [chunkStep, offsets_nil radius hr]
  rw [hstep]
  rfl

theorem atIdx_thetaGrid (spec : Grid) (i j : ℕ) (hi : i < nrows spec) (hj : j < ncols spec) :
    atIdx (thetaGrid spec) i j
      = arctan2 (atIdx (sobelY spec) i j) (atIdx (sobelX spec) i j) + Real.pi / 2 := by
  unfold thetaGrid
  exact atIdx_mkGrid _ _ _ i j hi hj

theorem atIdx_dyGrid (spec : Grid) (i j : ℕ) (hi : i < nrows spec) (hj : j < ncols spec) :
    atIdx (dyGrid spec) i j = Real.sin (atIdx (thetaGrid spec) i j) := by
  unfold dyGrid
  exact atIdx_mkGrid _ _ _ i j hi hj

theorem atIdx_dxGrid (spec : Grid) (i j : ℕ) (hi : i < nrows spec) (hj : j < ncols spec) :
    atIdx (dxGrid spec) i j = Real.cos (atIdx (thetaGrid spec) i j) := by
  unfold dxGrid
  exact atIdx_mkGrid _ _ _ i j hi hj

theorem npMedian_single (x : ℝ) : npMedian [x] = x := by
  rw [npMedian_odd [x] 0 rfl]
  rfl

theorem mkGrid_congr (F T : ℕ) (f g : ℕ → ℕ → ℝ) (h : ∀ i < F, ∀ j < T, f i j = g i j) :
    mkGrid F T f = mkGrid F T g := by
  unfold mkGrid
  apply List.map_congr_left
  intro i hi
  apply List.map_congr_left
  intro j hj
  exact h i (List.mem_range.mp hi) j (List.mem_range.mp hj)

theorem mkGrid_atIdx_eq (g : Grid) (h : WF g) :
    mkGrid (nrows g) (ncols g) (fun i j => atIdx g i j) = g := by
  apply List.ext_getElem (length_mkGrid _ _ _)
  intro i h1 h2
  rw [← List.getD_eq_getElem _ [] h1, row_mkGrid _ _ _ i (by rw [length_mkGrid] at h1; exact h1)]
  have hi : i < nrows g := h2
  have hrowmem : g[i] ∈ g := List.getElem_mem h2
  have hlen : (g[i]).length = ncols g := h _ hrowmem
  apply List.ext_getElem (by rw [List.length_map, List.length_range]; omega)
  intro j hj1 hj2
  have hj : j < ncols g := by
    rw [List.length_map, List.length_range] at hj1; exact hj1
  rw [List.getElem_map, List.getElem_range]
  unfold atIdx
  rw [List.getD_eq_getElem g [] hi, List.getD_eq_getElem _ 0 (by omega)]

theorem atIdx_const (g : Grid) (cv : ℝ) (hwf : WF g) (hconst : ∀ row ∈ g, ∀ v ∈ row, v = cv)
    (i j : ℕ) (hi : i < nrows g) (hj : j < ncols g) : atIdx g i j = cv := by
  unfold atIdx
  rw [List.getD_eq_getElem g [] hi]
  have hmem : g[i] ∈ g := List.getElem_mem hi
  have hj' : j < (g[i]).length := by rw [hwf _ hmem]; omega
  rw [List.getD_eq_getElem _ 0 hj']
  exact hconst _ hmem _ (List.getElem_mem hj')

theorem atRefl_const (g : Grid) (cv : ℝ) (hwf : WF g) (hconst : ∀ row ∈ g, ∀ v ∈ row, v = cv)
    (hF : 0 < nrows g) (hT : 0 < ncols g) (i j : ℤ) : atRefl g i j = cv := by
  unfold atRefl
  obtain ⟨hi1, hi2⟩ := reflectIdx_bounds (nrows g) i hF
  obtain ⟨hj1, hj2⟩ := reflectIdx_bounds (ncols g) j hT
  exact atIdx_const g cv hwf hconst _ _ (by omega) (by omega)

theorem interp2_const (g : Grid) (cv : ℝ) (hwf : WF g) (hconst : ∀ row ∈ g, ∀ v ∈ row, v = cv)
    (hF : 0 < nrows g) (hT : 0 < ncols g) (x y : ℝ) : interp2 g x y = cv := by
  unfold interp2
  rw [atRefl_const g cv hwf hconst hF hT, atRefl_const g cv hwf hconst hF hT,
    atRefl_const g cv hwf hconst hF hT, atRefl_const g cv hwf hconst hF hT]
  ring

theorem reflectIdx_formula (N : ℕ) (i : ℤ) (hN : 0 < N) (h1 : -(N:ℤ) ≤ i) (h2 : i < 2 * N) :
    reflectIdx N i
      = if i < 0 then -i - 1 else if (N:ℤ) ≤ i then 2 * N - 1 - i else i := by
  unfold reflectIdx
  rcases lt_or_ge i 0 with hneg | hpos
  · have h4 : (i + 2 * (N:ℤ) * 1) % (2 * (N:ℤ)) = i % (2 * (N:ℤ)) :=
      Int.add_mul_emod_self_left i (2 * (N:ℤ)) 1
    rw [mul_one] at h4
    have h7 : (i + 2 * (N:ℤ)) % (2 * (N:ℤ)) = i + 2 * N :=
      Int.emod_eq_of_lt (by omega) (by omega)
    rw [h7] at h4
    rw [← h4, if_neg (show ¬(i + 2 * (N:ℤ) < (N:ℤ)) by omega), if_pos hneg]
    omega
  · have h7 : i % (2 * (N:ℤ)) = i := Int.emod_eq_of_lt (by omega) (by omega)
    rw [h7, if_neg (show ¬(i < (0:ℤ)) by omega)]
    rcases lt_or_ge i (N:ℤ) with hlt | hge
    · rw [if_pos hlt, if_neg (show ¬((N:ℤ) ≤ i) by omega)]
    · rw [if_neg (show ¬(i < (N:ℤ)) by omega), if_pos hge]

/-- Claim C1: chunk invariance of AMF. For every 2D input spectrogram and
every pair of valid chunk sizes (each between 1 and the number of rows),
running the filter with the two chunk sizes produces identical output
arrays: chunking is observationally transparent because every sample is
read from the full, unchunked spectrogram and orientation field. -/
theorem AMF_chunk_invariance (spec : Grid) (radius : ℤ) (c1 c2 : ℕ)
    (h1 : 1 ≤ c1) (h1n : c1 ≤ nrows spec) (h2 : 1 ≤ c2) (h2n : c2 ≤ nrows spec) :
    AMFwith spec radius c1 = AMFwith spec radius c2 := by
  rcases le_or_lt 0 radius with hr | hr
  · rw [AMFwith_eq_pointwise spec radius c1 hr (by omega),
      AMFwith_eq_pointwise spec radius c2 hr (by omega)]
  · have hn : 0 < nrows spec := by omega
    rw [AMFwith_neg spec radius c1 hr (by omega) hn,
      AMFwith_neg spec radius c2 hr (by omega) hn]

/-- Claim C2: directional sampling formula. The sample that the chunk loop
collects for global pixel (start+li, j) and offset k (reading the sliced
orientation planes dy[start:stop], dx[start:stop] exactly as the source
does) is the bilinear interpolation of the full input at the displaced
coordinate (row + k sin(theta), col + k cos(theta)), where theta is
atan2(Gy, Gx) + pi/2 computed from the Sobel gradients of the unmodified
input. -/
theorem AMF_directional_sampling (spec : Grid) (start stop li j : ℕ) (k : ℤ)
    (hstop : stop ≤ nrows spec) (hli : li < stop - start) (hj : j < ncols spec) :
    atIdx (chunkSample spec (sliceRows (dyGrid spec) start stop)
        (sliceRows (dxGrid spec) start stop) start k) li j
      = interp2 spec
          (((start + li : ℕ) : ℝ) + (k : ℝ) * Real.sin (arctan2
            (atIdx (sobelY spec) (start + li) j) (atIdx (sobelX spec) (start + li) j)
            + Real.pi / 2))
          ((j : ℝ) + (k : ℝ) * Real.cos (arctan2
            (atIdx (sobelY spec) (start + li) j) (atIdx (sobelX spec) (start + li) j)
            + Real.pi / 2)) := by
  have hdy : (sliceRows (dyGrid spec) start stop).length = stop - start :=
    length_sliceRows _ _ _ (by rw [nrows_dyGrid]; exact hstop)
  have hsl : start + li < nrows spec := by omega
  rw [atIdx_chunkSample _ _ _ _ _ _ _ (by omega) hj,
    atIdx_sliceRows _ _ _ _ _ hli, atIdx_sliceRows _ _ _ _ _ hli,
    atIdx_dyGrid spec _ _ hsl hj, atIdx_dxGrid spec _ _ hsl hj,
    atIdx_thetaGrid spec _ _ hsl hj]

/-- Claim C3: median aggregation over an odd sample count. For every pixel
the filter collects exactly 2*radius+1 samples (the offsets are exactly
the integers -radius..radius), and the output value at that pixel is the
middle element of the sorted sample list; no averaging of two middle
elements occurs since the count is odd. -/
theorem AMF_median_aggregation (spec : Grid) (radius : ℤ) (c : ℕ) (i j : ℕ)
    (hr : 0 ≤ radius) (hc : 0 < c) (hi : i < nrows spec) (hj : j < ncols spec) :
    ((sampleList spec radius i j).length : ℤ) = 2 * radius + 1
    ∧ (∀ k : ℤ, k ∈ offsets radius ↔ -radius ≤ k ∧ k ≤ radius)
    ∧ (AMFwith spec radius c).map (fun out => atIdx out i j)
        = some (((sampleList spec radius i j).insertionSort
            (fun a b => a ≤ b)).getD radius.toNat 0) := by
  have hlen : (sampleList spec radius i j).length = 2 * radius.toNat + 1 := by
    rw [sampleList, List.length_map, offsets_length]
    omega
  refine ⟨by rw [hlen]; push_cast; omega, mem_offsets radius hr, ?_⟩
  rw [AMFwith_eq_pointwise spec radius c hr hc]
  simp only [Option.map_some']
  congr 1
  have hpt : atIdx (AMFpointwise spec radius) i j = npMedian (sampleList spec radius i j) := by
    unfold AMFpointwise
    exact atIdx_mkGrid _ _ _ i j hi hj
  rw [hpt, npMedian_odd _ radius.toNat hlen]

/-- Claim C4: boundary reflection. For integer sampling coordinates that
fall outside the valid index range of either axis (but within one
reflection period), the sampled value produced by the interpolation used
in AMF equals the grid value at the mirrored in-bounds index: the mirror
of a negative index i is -i-1 and the mirror of an index beyond the end is
2N-1-i, which always lands strictly inside [0, N); the value is neither a
zero substitute nor a circular wrap. -/
theorem AMF_boundary_reflection (g : Grid) (i j : ℤ)
    (hF : 0 < nrows g) (hT : 0 < ncols g)
    (hi1 : -(nrows g : ℤ) ≤ i) (hi2 : i < 2 * nrows g)
    (hj1 : -(ncols g : ℤ) ≤ j) (hj2 : j < 2 * ncols g)
    (hout : i < 0 ∨ (nrows g : ℤ) ≤ i ∨ j < 0 ∨ (ncols g : ℤ) ≤ j) :
    ∃ mi mj : ℕ, mi < nrows g ∧ mj < ncols g
      ∧ (mi : ℤ) = (if i < 0 then -i - 1 else
          if (nrows g : ℤ) ≤ i then 2 * nrows g - 1 - i else i)
      ∧ (mj : ℤ) = (if j < 0 then -j - 1 else
          if (ncols g : ℤ) ≤ j then 2 * ncols g - 1 - j else j)
      ∧ interp2 g (i : ℝ) (j : ℝ) = atIdx g mi mj := by
  obtain ⟨hbi1, hbi2⟩ := reflectIdx_bounds (nrows g) i hF
  obtain ⟨hbj1, hbj2⟩ := reflectIdx_bounds (ncols g) j hT
  refine ⟨(reflectIdx (nrows g) i).toNat, (reflectIdx (ncols g) j).toNat,
    by omega, by omega, ?_, ?_, ?_⟩
  · rw [Int.toNat_of_nonneg hbi1]
    exact reflectIdx_formula (nrows g) i hF hi1 hi2
  · rw [Int.toNat_of_nonneg hbj1]
    exact reflectIdx_formula (ncols g) j hT hj1 hj2
  · rw [interp2_intCast]
    rfl

/-- Counterexample to claim C5: the source performs no radius validation.
AMF applied with radius = 0 (which is ≤ 0) returns an output array instead
of failing, refuting the claim that every radius ≤ 0 is rejected with
InvalidParameterError. -/
theorem AMF_no_radius_validation_cex : (AMF [[(5:ℝ)]] 0).isSome = true := by
  rw [AMF, AMFwith_eq_pointwise [[(5:ℝ)]] 0 2000 (le_refl 0) (by norm_num)]
  rfl

/-- Claim C5 (amended): the source defines no InvalidShapeError or
InvalidParameterError and takes no chunk_size parameter (the chunk size is
the constant 2000). Non-2D inputs are unrepresentable in the embedding
(the shape unpacking in the source rejects them before any chunk). For the
radius: the call succeeds exactly when radius ≥ 0; radius = 0 is accepted
and produces output, while a negative radius fails (np.stack of an empty
sample list) during the first chunk, before any output row is written. -/
theorem AMF_validation_behaviour (spec : Grid) (radius : ℤ) (hn : 0 < nrows spec) :
    (AMF spec radius).isSome = true ↔ 0 ≤ radius := by
  constructor
  · intro h
    by_contra hneg
    push_neg at hneg
    rw [AMF, AMFwith_neg spec radius 2000 hneg (by norm_num) hn] at h
    simp at h
  · intro hr
    rw [AMF, AMFwith_eq_pointwise spec radius 2000 hr (by norm_num)]
    rfl

/-- Claim C6: radius-zero identity. With radius = 0 each pixel has exactly
one sample (offset k = 0, the pixel's own coordinate), so for every
well-formed 2D input the output array equals the input array exactly. -/
theorem AMF_radius_zero_identity (spec : Grid) (h : WF spec) : AMF spec 0 = some spec := by
  rw [AMF, AMFwith_eq_pointwise spec 0 2000 (le_refl 0) (by norm_num)]
  congr 1
  have hoff : offsets 0 = [0] := rfl
  have h1 : AMFpointwise spec 0
      = mkGrid (nrows spec) (ncols spec) (fun i j => atIdx spec i j) := by
    unfold AMFpointwise
    apply mkGrid_congr
    intro i hi j hj
    have hsl : sampleList spec 0 i j = [interp2 spec (i : ℝ) (j : ℝ)] := by
      simp [sampleList, hoff]
    rw [hsl, npMedian_single, interp2_natCast spec i j hi hj]
  rw [h1, mkGrid_atIdx_eq spec h]

/-- Claim C7: shape preservation. For every input of shape (F, T) and
valid parameters, the filter returns an output array with exactly F rows,
first-row length T, and every row of length T. -/
theorem AMF_shape_preservation (spec : Grid) (radius : ℤ) (c : ℕ)
    (hr : 0 ≤ radius) (hc : 0 < c) :
    ∃ out : Grid, AMFwith spec radius c = some out
      ∧ nrows out = nrows spec ∧ ncols out = ncols spec
      ∧ ∀ row ∈ out, row.length = ncols spec := by
  refine ⟨AMFpointwise spec radius, AMFwith_eq_pointwise spec radius c hr hc, ?_, ?_, ?_⟩
  · unfold AMFpointwise
    exact nrows_mkGrid _ _ _
  · rcases Nat.eq_zero_or_pos (nrows spec) with h0 | h0
    · have hnil : spec = [] := List.length_eq_zero.mp h0
      unfold AMFpointwise
      rw [hnil]
      rfl
    · unfold AMFpointwise
      exact ncols_mkGrid _ _ _ h0
  · intro row hrow
    rcases Nat.eq_zero_or_pos (nrows spec) with h0 | h0
    · unfold AMFpointwise at hrow
      rw [h0] at hrow
      simp [mkGrid] at hrow
    · have := WF_mkGrid (nrows spec) (ncols spec)
        (fun i j => npMedian (sampleList spec radius i j)) row hrow
      rw [this]
      exact ncols_mkGrid _ _ _ h0

/-- Claim C8: flat-field invariance. For a constant-valued well-formed
input (every pixel equal to cv) and any valid radius and chunk size, every
output pixel equals cv: every directional sample of a constant grid is cv
regardless of the orientation or of the fractional coordinates, and the
median of a constant list is that constant. -/
theorem AMF_flat_field (spec : Grid) (cv : ℝ) (radius : ℤ) (c : ℕ) (i j : ℕ)
    (hwf : WF spec) (hr : 0 ≤ radius) (hc : 0 < c)
    (hconst : ∀ row ∈ spec, ∀ v ∈ row, v = cv)
    (hi : i < nrows spec) (hj : j < ncols spec) :
    (AMFwith spec radius c).map (fun out => atIdx out i j) = some cv := by
  rw [AMFwith_eq_pointwise spec radius c hr hc]
  simp only [Option.map_some']
  congr 1
  have hpt : atIdx (AMFpointwise spec radius) i j = npMedian (sampleList spec radius i j) := by
    unfold AMFpointwise
    exact atIdx_mkGrid _ _ _ i j hi hj
  rw [hpt]
  apply npMedian_const
  · intro hnil
    rw [sampleList] at hnil
    exact offsets_ne_nil radius hr (List.map_eq_nil_iff.mp hnil)
  · intro x hx
    rw [sampleList] at hx
    obtain ⟨k, hk, rfl⟩ := List.mem_map.mp hx
    exact interp2_const spec cv hwf hconst (by omega) (by omega) _ _

/-- Claim C9: the input spectrogram is never mutated. Whether the chunk
loop completes or fails, the spectrogram component of the filter state is
the caller's input: every write of the loop targets only the separately
allocated output array. -/
theorem AMF_input_not_mutated (spec : Grid) (radius : ℤ) (c : ℕ) :
    (runChunks spec (dyGrid spec) (dxGrid spec) radius c).map AMFState.spec
      = (runChunks spec (dyGrid spec) (dxGrid spec) radius c).map (fun _ => spec) := by
  unfold runChunks
  have key : ∀ (l : List ℕ) (st : AMFState), st.spec = spec →
      (List.foldlM (chunkStep (dyGrid spec) (dxGrid spec) radius c) st l).map AMFState.spec
        = (List.foldlM (chunkStep (dyGrid spec) (dxGrid spec) radius c) st l).map
            (fun _ => spec) := by
    intro l
    induction l with
    | nil =>
      intro st hst
      simp [List.foldlM, hst]
    | cons s rest ih =>
      intro st hst
      rw [List.foldlM_cons]
      cases hstep : chunkStep (dyGrid spec) (dxGrid spec) radius c st s with
      | none => rfl
      | some st' =>
        have hspec' : st'.spec = st.spec := by
          simp only [chunkStep] at hstep
          split at hstep
          · exact absurd hstep (by simp)
          · injection hstep with hmk
            rw [← hmk]
        simp only [Option.bind_eq_bind, Option.some_bind]
        exact ih st' (by rw [hspec', hst])
  exact key (chunkStarts (nrows spec) c) ⟨spec, mkGrid (nrows spec) (ncols spec) (fun _ _ => 0)⟩ rfl

/-
  Embedding of compute_snr.py. Since means of empty arrays, log10 of
  non-positive values and arithmetic on NaN produce NaN (or other
  non-finite values), float values are modelled as Option ℝ with none
  standing for a non-finite result.
-/

/-- One entry of the burst_labels list: {"burst": str, "start_idx": int, "end_idx": int}. -/
structure BurstLabel where
  burst : String
  start_idx : ℤ
  end_idx : ℤ

/-- Mean of column j, one entry of spectrogram.mean(axis=0); the mean of
an empty column (no rows) is NaN. -/
def colMean (g : Grid) (j : ℕ) : Option ℝ :=
  if nrows g = 0 then none
  else some (((List.range (nrows g)).map (fun i => atIdx g i j)).sum / (nrows g : ℝ))

/-- flux_time = spectrogram.mean(axis=0). -/
def fluxTime (g : Grid) : List (Option ℝ) :=
  (List.range (ncols g)).map (fun j => colMean g j)

/-- The effective stop of the Python slice mask[start:stop] for an
integer stop: negative stops wrap by the length and clamp at 0,
non-negative stops clamp at the length. -/
def pySliceStop (T : ℕ) (stop : ℤ) : ℕ :=
  if stop < 0 then ((T : ℤ) + stop).toNat else min stop.toNat T

/-- burst_mask[start:end+1] = True for one label, with
start = max(0, start_idx) and end = min(n_times - 1, end_idx). -/
def applyLabel (T : ℕ) (mask : List Bool) (e : BurstLabel) : List Bool :=
  mask.mapIdx (fun t b =>
    if (max 0 e.start_idx).toNat ≤ t ∧ t < pySliceStop T (min ((T : ℤ) - 1) e.end_idx + 1)
    then true else b)

/-- The boolean burst mask over the time axis. -/
def burstMask (T : ℕ) (labels : List BurstLabel) : List Bool :=
  labels.foldl (applyLabel T) (List.replicate T false)

/-- arr.mean() of a 1D float array: NaN for an empty array, NaN when any
entry is NaN, the arithmetic mean otherwise. -/
def fmeanList (l : List (Option ℝ)) : Option ℝ :=
  if l.length = 0 then none
  else if l.any (fun o => o.isNone) then none
  else some ((l.map (fun o => o.getD 0)).sum / (l.length : ℝ))

/-- Python truthiness of a float: 0.0 is falsy, every other float
(including NaN) is truthy. -/
def truthy : Option ℝ → Bool
  | none => true
  | some v => decide (v ≠ 0)

/-- Float division with NaN propagation; division by zero is non-finite
and also modelled as none (unreachable under the truthiness guard). -/
def fdiv : Option ℝ → Option ℝ → Option ℝ
  | some a, some b => if b = 0 then none else some (a / b)
  | _, _ => none

/-- np.log10 with NaN propagation; non-positive arguments give a
non-finite result, modelled as none. -/
def flog10 : Option ℝ → Option ℝ
  | some v => if 0 < v then some (Real.log v / Real.log 10) else none
  | none => none

/-- compute_snr(spectrogram, burst_labels): returns
(snr_db, signal_mean, noise_mean). -/
def compute_snr (g : Grid) (labels : List BurstLabel) :
    Option ℝ × Option ℝ × Option ℝ :=
  let mask := burstMask (ncols g) labels
  let inside := ((List.range (ncols g)).filter (fun t => mask.getD t false)).map
    (fun t => (fluxTime g).getD t none)
  let outside := ((List.range (ncols g)).filter (fun t => !(mask.getD t false))).map
    (fun t => (fluxTime g).getD t none)
  let signal_mean := fmeanList inside
  let noise_mean := fmeanList outside
  let snr_db := if truthy signal_mean && truthy noise_mean
    then (flog10 (fdiv signal_mean noise_mean)).map (fun v => 10 * v)
    else none
  (snr_db, signal_mean, noise_mean)

theorem length_applyLabel (T : ℕ) (mask : List Bool) (e : BurstLabel) :
    (applyLabel T mask e).length = mask.length := by
  simp [applyLabel]

theorem getD_applyLabel (T : ℕ) (mask : List Bool) (e : BurstLabel) (t : ℕ)
    (ht : t < mask.length) :
    (applyLabel T mask e).getD t false
      = if (max 0 e.start_idx).toNat ≤ t
          ∧ t < pySliceStop T (min ((T : ℤ) - 1) e.end_idx + 1)
        then true else mask.getD t false := by
  simp only [applyLabel, List.getD, List.get?_eq_getElem?, List.getElem?_mapIdx,
    List.getElem?_eq_getElem ht]
  rfl

theorem foldl_applyLabel_getD (T t : ℕ) (labels : List BurstLabel) :
    ∀ m : List Bool, t < m.length →
      ((labels.foldl (applyLabel T) m).getD t false = true
        ↔ (m.getD t false = true ∨ ∃ e ∈ labels,
            (max 0 e.start_idx).toNat ≤ t
            ∧ t < pySliceStop T (min ((T : ℤ) - 1) e.end_idx + 1))) := by
  induction labels with
  | nil =>
    intro m _
    simp
  | cons e rest ih =>
    intro m hm
    rw [List.foldl_cons, ih (applyLabel T m e) (by rw [length_applyLabel]; exact hm),
      getD_applyLabel T m e t hm]
    by_cases hcond : (max 0 e.start_idx).toNat ≤ t
        ∧ t < pySliceStop T (min ((T : ℤ) - 1) e.end_idx + 1)
    · rw [if_pos hcond]
      simp only [List.mem_cons]
      constructor
      · intro _
        exact Or.inr ⟨e, Or.inl rfl, hcond⟩
      · intro _
        exact Or.inl (by trivial)
    · rw [if_neg hcond]
      simp only [List.mem_cons]
      constructor
      · rintro (h | ⟨e', he', hc'⟩)
        · exact Or.inl h
        · exact Or.inr ⟨e', Or.inr he', hc'⟩
      · rintro (h | ⟨e', he' | he', hc'⟩)
        · exact Or.inl h
        · rw [← he'] at hcond
          exact absurd hc' hcond
        · exact Or.inr ⟨e', he', hc'⟩

theorem burstMask_true_iff (T : ℕ) (labels : List BurstLabel) (t : ℕ) (ht : t < T) :
    ((burstMask T labels).getD t false = true
      ↔ ∃ e ∈ labels, (max 0 e.start_idx).toNat ≤ t
          ∧ t < pySliceStop T (min ((T : ℤ) - 1) e.end_idx + 1)) := by
  unfold burstMask
  rw [foldl_applyLabel_getD T t labels (List.replicate T false)
    (by rw [List.length_replicate]; exact ht)]
  have hrep : (List.replicate T false).getD t false = false := by
    simp only [List.getD, List.get?_eq_getElem?, List.getElem?_replicate]
    split <;> rfl
  rw [hrep]
  simp

theorem mark_cond_iff (T t : ℕ) (e : BurstLabel) (ht : t < T) :
    ((max 0 e.start_idx).toNat ≤ t
        ∧ t < pySliceStop T (min ((T : ℤ) - 1) e.end_idx + 1))
      ↔ (max 0 e.start_idx ≤ (t : ℤ)
          ∧ ((-1 ≤ e.end_idx ∧ (t : ℤ) ≤ min ((T : ℤ) - 1) e.end_idx)
            ∨ (e.end_idx < -1 ∧ (t : ℤ) ≤ (T : ℤ) + e.end_idx))) := by
  unfold pySliceStop
  split
  · omega
  · omega

theorem snr_none_of (s n : Option ℝ) (h : s = none ∨ n = none ∨ s = some 0 ∨ n = some 0) :
    (if truthy s && truthy n then (flog10 (fdiv s n)).map (fun v => 10 * v) else none)
      = none := by
  rcases h with rfl | rfl | rfl | rfl
  · cases n <;> simp [truthy, fdiv, flog10]
  · cases s <;> simp [truthy, fdiv, flog10]
  · simp [truthy]
  · simp [truthy]

/-- Counterexample to claim C10: a label with a negative end index is not
clamped to an empty range. With T = 3 time columns and the single label
(start_idx 0, end_idx -2), the claimed clamped inclusive range
[max(0,0), min(T-1,-2)] contains no time index, so signal_mean should be
NaN; but the source marks indices 0 and 1 via Python negative-slice
wrapping (mask[0:-1]) and returns signal_mean = 3/2. -/
theorem compute_snr_clamping_cex :
    burstMask 3 [⟨"b", 0, -2⟩] = [true, true, false]
    ∧ (compute_snr [[(1:ℝ), 2, 30]] [⟨"b", 0, -2⟩]).2.1 = some (3 / 2) := by
  constructor
  · decide
  · have hmask : burstMask (ncols [[(1:ℝ), 2, 30]]) [⟨"b", 0, -2⟩] = [true, true, false] := by
      decide
    simp only [compute_snr, hmask]
    norm_num [fluxTime, colMean, fmeanList, atIdx, ncols, nrows, List.range_succ,
      List.filter, List.getD]

/-- Claim C10 (amended): edge behaviour of compute_snr. A time index t is
marked as burst exactly when some label covers it, where a label with
end_idx ≥ -1 covers the clamped inclusive range
[max(0,start_idx), min(T-1,end_idx)], while a label with end_idx ≤ -2
instead covers [max(0,start_idx), T+end_idx] by Python negative-slice
wrapping. If no time index is marked, signal_mean is NaN; if every time
index is marked, noise_mean is NaN; and snr_db is NaN whenever
signal_mean or noise_mean is NaN or zero. No exception is raised in any
of these cases (compute_snr is total). -/
theorem compute_snr_edge_behaviour (g : Grid) (labels : List BurstLabel) :
    (∀ t : ℕ, t < ncols g →
      ((burstMask (ncols g) labels).getD t false = true
        ↔ ∃ e ∈ labels, max 0 e.start_idx ≤ (t : ℤ)
            ∧ ((-1 ≤ e.end_idx ∧ (t : ℤ) ≤ min ((ncols g : ℤ) - 1) e.end_idx)
              ∨ (e.end_idx < -1 ∧ (t : ℤ) ≤ (ncols g : ℤ) + e.end_idx))))
    ∧ ((∀ t : ℕ, t < ncols g → (burstMask (ncols g) labels).getD t false = false)
        → (compute_snr g labels).2.1 = none)
    ∧ ((∀ t : ℕ, t < ncols g → (burstMask (ncols g) labels).getD t false = true)
        → (compute_snr g labels).2.2 = none)
    ∧ (((compute_snr g labels).2.1 = none ∨ (compute_snr g labels).2.2 = none
        ∨ (compute_snr g labels).2.1 = some 0 ∨ (compute_snr g labels).2.2 = some 0)
        → (compute_snr g labels).1 = none) := by
  refine ⟨?_, ?_, ?_, ?_⟩
  · intro t ht
    rw [burstMask_true_iff (ncols g) labels t ht]
    constructor
    · rintro ⟨e, he, hc⟩
      exact ⟨e, he, (mark_cond_iff (ncols g) t e ht).mp hc⟩
    · rintro ⟨e, he, hc⟩
      exact ⟨e, he, (mark_cond_iff (ncols g) t e ht).mpr hc⟩
  · intro hall
    have hfil : (List.range (ncols g)).filter
        (fun t => (burstMask (ncols g) labels).getD t false) = [] := by
      rw [List.filter_eq_nil_iff]
      intro t htmem
      rw [List.mem_range] at htmem
      rw [hall t htmem]
      simp
    simp only [compute_snr, hfil]
    rfl
  · intro hall
    have hfil : (List.range (ncols g)).filter
        (fun t => !((burstMask (ncols g) labels).getD t false)) = [] := by
      rw [List.filter_eq_nil_iff]
      intro t htmem
      rw [List.mem_range] at htmem
      rw [hall t htmem]
      simp
    simp only [compute_snr, hfil]
    rfl
  · intro h
    simp only [compute_snr] at h ⊢
    exact snr_none_of _ _ h

/-- Witness for C1: chunk invariance evaluated on a concrete 2 x 1 input
with chunk sizes 1 and 2. -/
theorem AMF_chunk_invariance_witness :
    1 ≤ nrows [[(1:ℝ)], [(2:ℝ)]] ∧ 2 ≤ nrows [[(1:ℝ)], [(2:ℝ)]]
    ∧ AMFwith [[(1:ℝ)], [(2:ℝ)]] 15 1 = AMFwith [[(1:ℝ)], [(2:ℝ)]] 15 2 :=
  ⟨by decide, by decide,
    AMF_chunk_invariance [[(1:ℝ)], [(2:ℝ)]] 15 1 2 (by decide) (by decide)
      (by decide) (by decide)⟩

/-- Witness for C2: the sampling formula at pixel (0,0), offset 1, of a
concrete 1 x 1 input. -/
theorem AMF_directional_sampling_witness :
    1 ≤ nrows [[(1:ℝ)]] ∧ 0 < ncols [[(1:ℝ)]]
    ∧ atIdx (chunkSample [[(1:ℝ)]] (sliceRows (dyGrid [[(1:ℝ)]]) 0 1)
        (sliceRows (dxGrid [[(1:ℝ)]]) 0 1) 0 1) 0 0
      = interp2 [[(1:ℝ)]]
          (((0 + 0 : ℕ) : ℝ) + ((1:ℤ) : ℝ) * Real.sin (arctan2
            (atIdx (sobelY [[(1:ℝ)]]) (0 + 0) 0) (atIdx (sobelX [[(1:ℝ)]]) (0 + 0) 0)
            + Real.pi / 2))
          (((0:ℕ) : ℝ) + ((1:ℤ) : ℝ) * Real.cos (arctan2
            (atIdx (sobelY [[(1:ℝ)]]) (0 + 0) 0) (atIdx (sobelX [[(1:ℝ)]]) (0 + 0) 0)
            + Real.pi / 2)) :=
  ⟨by decide, by decide,
    AMF_directional_sampling [[(1:ℝ)]] 0 1 0 0 1 (by decide) (by decide) (by decide)⟩

/-- Witness for C3: median aggregation on a concrete 1 x 1 input with
radius 0 and chunk size 1. -/
theorem AMF_median_aggregation_witness :
    0 < nrows [[(1:ℝ)]] ∧ 0 < ncols [[(1:ℝ)]]
    ∧ (((sampleList [[(1:ℝ)]] 0 0 0).length : ℤ) = 2 * 0 + 1
      ∧ (∀ k : ℤ, k ∈ offsets 0 ↔ -0 ≤ k ∧ k ≤ 0)
      ∧ (AMFwith [[(1:ℝ)]] 0 1).map (fun out => atIdx out 0 0)
          = some (((sampleList [[(1:ℝ)]] 0 0 0).insertionSort
              (fun a b => a ≤ b)).getD (0:ℤ).toNat 0)) :=
  ⟨by decide, by decide,
    AMF_median_aggregation [[(1:ℝ)]] 0 1 0 0 (le_refl 0) Nat.one_pos
      (by decide) (by decide)⟩

/-- Witness for C4: boundary reflection of the out-of-bounds integer
coordinate (-1, 0) on a concrete 2 x 2 ramp grid. -/
theorem AMF_boundary_reflection_witness :
    ((-1:ℤ) < 0 ∨ (nrows [[(1:ℝ), 2], [3, 4]] : ℤ) ≤ -1 ∨ (0:ℤ) < 0
      ∨ (ncols [[(1:ℝ), 2], [3, 4]] : ℤ) ≤ 0)
    ∧ ∃ mi mj : ℕ, mi < nrows [[(1:ℝ), 2], [3, 4]] ∧ mj < ncols [[(1:ℝ), 2], [3, 4]]
      ∧ (mi : ℤ) = (if (-1:ℤ) < 0 then -(-1:ℤ) - 1 else
          if (nrows [[(1:ℝ), 2], [3, 4]] : ℤ) ≤ -1
          then 2 * nrows [[(1:ℝ), 2], [3, 4]] - 1 - (-1) else -1)
      ∧ (mj : ℤ) = (if (0:ℤ) < 0 then -(0:ℤ) - 1 else
          if (ncols [[(1:ℝ), 2], [3, 4]] : ℤ) ≤ 0
          then 2 * ncols [[(1:ℝ), 2], [3, 4]] - 1 - 0 else 0)
      ∧ interp2 [[(1:ℝ), 2], [3, 4]] ((-1:ℤ) : ℝ) ((0:ℤ) : ℝ) = atIdx [[(1:ℝ), 2], [3, 4]] mi mj :=
  ⟨Or.inl (by decide),
    AMF_boundary_reflection [[(1:ℝ), 2], [3, 4]] (-1) 0 (by decide) (by decide)
      (by decide) (by decide) (by decide) (by decide) (Or.inl (by decide))⟩

/-- Witness for the amended C5: the validation iff evaluated at a concrete
1 x 1 input and the rejected radius -1. -/
theorem AMF_validation_behaviour_witness :
    0 < nrows [[(2:ℝ)]] ∧ ((AMF [[(2:ℝ)]] (-1)).isSome = true ↔ (0:ℤ) ≤ -1) :=
  ⟨by decide, AMF_validation_behaviour [[(2:ℝ)]] (-1) (by decide)⟩

/-- Witness for C6: radius-zero identity on a concrete 2 x 1 input. -/
theorem AMF_radius_zero_identity_witness :
    WF [[(1:ℝ)], [(2:ℝ)]] ∧ AMF [[(1:ℝ)], [(2:ℝ)]] 0 = some [[(1:ℝ)], [(2:ℝ)]] :=
  ⟨by unfold WF; decide, AMF_radius_zero_identity [[(1:ℝ)], [(2:ℝ)]] (by unfold WF; decide)⟩

/-- Witness for C7: shape preservation on a concrete 1 x 1 input with
radius 1 and chunk size 2. -/
theorem AMF_shape_preservation_witness :
    (0:ℤ) ≤ 1 ∧ 0 < 2
    ∧ ∃ out : Grid, AMFwith [[(1:ℝ)]] 1 2 = some out
      ∧ nrows out = nrows [[(1:ℝ)]] ∧ ncols out = ncols [[(1:ℝ)]]
      ∧ ∀ row ∈ out, row.length = ncols [[(1:ℝ)]] :=
  ⟨by decide, by decide, AMF_shape_preservation [[(1:ℝ)]] 1 2 (by decide) (by decide)⟩

/-- Witness for C8: flat-field invariance on a concrete constant 1 x 1
input with value 3, radius 1, chunk size 1. -/
theorem AMF_flat_field_witness :
    WF [[(3:ℝ)]] ∧ (∀ row ∈ [[(3:ℝ)]], ∀ v ∈ row, v = (3:ℝ))
    ∧ (AMFwith [[(3:ℝ)]] 1 1).map (fun out => atIdx out 0 0) = some (3:ℝ) :=
  ⟨by unfold WF; decide,
    by
      intro row hr v hv
      simp only [List.mem_singleton] at hr
      subst hr
      simpa using hv,
    AMF_flat_field [[(3:ℝ)]] 3 1 1 0 0 (by unfold WF; decide) (by decide) (by decide)
      (by
        intro row hr v hv
        simp only [List.mem_singleton] at hr
        subst hr
        simpa using hv)
      (by decide) (by decide)⟩

/-- Witness for the amended C10: with no labels no time index is marked,
so signal_mean is NaN on a concrete 1 x 1 spectrogram. -/
theorem compute_snr_edge_behaviour_witness :
    (compute_snr [[(1:ℝ)]] []).2.1 = none :=
  (compute_snr_edge_behaviour [[(1:ℝ)]] []).2.1 (fun t ht => by
    have h0 : t = 0 := by
      have h1 : ncols [[(1:ℝ)]] = 1 := rfl
      omega
    subst h0
    rfl)

end
